import Mathlib

/-!
# Verification of the geth-local network-emulation harness

Shallow embedding, in Lean 4, of the harness code of the `geth-local`
repository, together with proofs about it:

* `src/emu/types.go` — the run-descriptor store (`Config`, `StoreConfig`,
  `LoadConfig`);
* `src/cmd/ethemu/gencmd.go` — the degree-bounded peering generator
  (`setPeers`);
* the density-probability peering generator (the variant of
  `cmd/ethemu/gencmd.go` whose `setPeers` draws per-pair connection
  probabilities);
* `src/cmd/ethemu/main.go` — the continuous workload driver (transaction
  task) and the two bounded benchmark drivers (transaction-count mode and
  block-height mode).

Machine integers of the source are modelled as `Nat` (none of the modelled
code relies on wrap-around), Go's `math/rand` draws are modelled as explicit
random streams (`Nat → Nat`), the possibly-nonterminating `for` loops are
modelled with explicit fuel (`none` = the loop is still running when the
fuel runs out), and a Go `panic` (such as `rand.Intn(n)` for `n ≤ 0`) is
modelled as `none`.
-/

namespace GethLocal

namespace Emu

/-- `emu.Node` of `src/emu/types.go`: one emulated node's persisted
descriptor. `common.Address` (a 20-byte account identifier) is modelled as
`Nat`. -/
structure Node where
  Identity : Nat
  Address : Nat
  IsMiner : Bool
  Peers : List Nat
deriving DecidableEq, Repr

/-- `emu.Config` of `src/emu/types.go`: the persisted run descriptor. The
Go field `Nodes map[common.Address]*Node` is modelled as an association
list keyed by address. -/
structure Config where
  Period : Nat
  MinTxInterval : Nat
  MaxTxInterval : Nat
  Nodes : List (Nat × Node)
  Latency : Nat
  Bandwidth : Nat
deriving DecidableEq, Repr

/-- Model of the JSON document tree that Go's `encoding/json` produces for
the run descriptor. Struct values are objects keyed by field name; the
address-keyed `Nodes` map is a separate object form whose keys stay numeric
(the hex-string rendering of `common.Address.MarshalText` is the external
account collaborator's and is assumed bijective). -/
inductive Jval where
  | num (n : Nat)
  | boolean (b : Bool)
  | arr (xs : List Jval)
  | obj (fields : List (String × Jval))
  | amap (entries : List (Nat × Jval))

/-- `json.Marshal` of an `emu.Node` (fields in declaration order, as Go
emits them). -/
def encodeNode (nd : Node) : Jval :=
  .obj [("Identity", .num nd.Identity), ("Address", .num nd.Address),
    ("IsMiner", .boolean nd.IsMiner), ("Peers", .arr (nd.Peers.map .num))]

/-- Decode a JSON array of numbers, failing on anything else
(`json.Unmarshal` into `[]common.Address`). -/
def decodeNatList : List Jval → Option (List Nat)
  | [] => some []
  | .num n :: vs =>
    match decodeNatList vs with
    | some l => some (n :: l)
    | none => none
  | _ => none

/-- `json.Unmarshal` of an `emu.Node`. Go's unmarshal matches object keys
by field name; the decoder here accepts the canonical field order that
`json.Marshal` emits (struct declaration order), which is the only form
`StoreConfig` ever writes. -/
def decodeNode : Jval → Option Node
  | .obj [("Identity", .num i), ("Address", .num a),
      ("IsMiner", .boolean m), ("Peers", .arr ps)] =>
    match decodeNatList ps with
    | some l => some ⟨i, a, m, l⟩
    | none => none
  | _ => none

/-- Encode the address-keyed node map. -/
def encodeNodeMap (nodes : List (Nat × Node)) : List (Nat × Jval) :=
  nodes.map (fun p => (p.1, encodeNode p.2))

/-- Decode the address-keyed node map. -/
def decodeNodeMap : List (Nat × Jval) → Option (List (Nat × Node))
  | [] => some []
  | (a, j) :: rest =>
    match decodeNode j, decodeNodeMap rest with
    | some nd, some l => some ((a, nd) :: l)
    | _, _ => none

/-- `json.MarshalIndent(Global, "", "  ")` of `StoreConfig`: the full
descriptor document. -/
def encodeConfig (g : Config) : Jval :=
  .obj [("Period", .num g.Period), ("MinTxInterval", .num g.MinTxInterval),
    ("MaxTxInterval", .num g.MaxTxInterval), ("Nodes", .amap (encodeNodeMap g.Nodes)),
    ("Latency", .num g.Latency), ("Bandwidth", .num g.Bandwidth)]

/-- `json.Unmarshal(bytes, &Global)` of `LoadConfig`. On a complete
document every field of the target is overwritten, so the decode result
stands alone. -/
def decodeConfig : Jval → Option Config
  | .obj [("Period", .num p), ("MinTxInterval", .num mn),
      ("MaxTxInterval", .num mx), ("Nodes", .amap entries),
      ("Latency", .num la), ("Bandwidth", .num bw)] =>
    match decodeNodeMap entries with
    | some nodes => some ⟨p, mn, mx, nodes, la, bw⟩
    | none => none
  | _ => none

/-- The experiment data directory's file system, path → stored document.
Writes prepend; reads find the newest entry. -/
abbrev FS := List (String × Jval)

/-- `os.ReadFile`, at the document level. -/
def fsRead (fs : FS) (p : String) : Option Jval :=
  (fs.find? (fun e => e.1 == p)).map (·.2)

/-- The fixed descriptor filename `emu.CONFIG_JSON`. -/
def CONFIG_JSON : String := "config.json"

/-- `path.Join(dataDir, CONFIG_JSON)`. -/
def configPath (dataDir : String) : String := dataDir ++ "/" ++ CONFIG_JSON

/-- Load errors of `LoadConfig`: `os.ReadFile` fails when no file exists
(not-found), `json.Unmarshal` fails on a corrupt document. -/
inductive LoadError where
  | notFound
  | decodeFailed
deriving DecidableEq

/-- `emu.StoreConfig(dataDir)`: marshal the global descriptor and write it
to `dataDir/config.json`. The global is passed explicitly. -/
def StoreConfig (dataDir : String) (global : Config) (fs : FS) : FS :=
  (configPath dataDir, encodeConfig global) :: fs

/-- `emu.LoadConfig(dataDir)`: read `dataDir/config.json` and unmarshal it
into the global descriptor. Returns the error outcome together with the
global's value after the call: on a read failure the function returns
before `json.Unmarshal` runs, so the global is untouched. -/
def LoadConfig (dataDir : String) (fs : FS) (global : Config) :
    Except LoadError Unit × Config :=
  match fsRead fs (configPath dataDir) with
  | none => (.error .notFound, global)
  | some j =>
    match decodeConfig j with
    | none => (.error .decodeFailed, global)
    | some c => (.ok (), c)

end Emu

namespace Gen

/-- Working state of the degree-bounded `setPeers` (gencmd.go):
`peers []mapset.Set[int]`, the i-th entry holding the set of node indices
currently linked to node i. -/
abbrev PeersState := List (Finset Nat)

/-- `peers[i]`. An out-of-range read (which the code never performs)
defaults to the empty set. -/
def psGet (ps : PeersState) (i : Nat) : Finset Nat := ps.getD i ∅

/-- The loop body's symmetric edge insertion:
`peers[i].Add(j); peers[j].Add(i)`. -/
def addEdge (ps : PeersState) (i j : Nat) : PeersState :=
  (ps.set i (insert j (psGet ps i))).set j
    (insert i (psGet (ps.set i (insert j (psGet ps i))) j))

/-- The `check` closure of `setPeers`: every entry's cardinality lies in
`[minPeer, maxPeer]`. -/
def checkDeg (n minPeer maxPeer : Nat) (ps : PeersState) : Bool :=
  (List.range n).all
    (fun i => decide (minPeer ≤ (psGet ps i).card) && decide ((psGet ps i).card ≤ maxPeer))

/-- The inner `for peers[i].Cardinality() < minPeer` loop of `setPeers`:
draw `j := mrand.Intn(len(nodes))` (modelled as `rand t % n` on the random
stream `rand`, with `t` the stream position), skip the draw when `j == i`
or `peers[j]` is already at `maxPeer`, otherwise add the symmetric edge.
The loop has no bound in the source; `fuel` counts iterations and `none`
means the loop is still running when the fuel runs out. -/
def innerFill (n minPeer maxPeer : Nat) (rand : Nat → Nat) (i : Nat) :
    Nat → Nat → PeersState → Option (Nat × PeersState)
  | 0, _, _ => none
  | fuel + 1, t, ps =>
    if minPeer ≤ (psGet ps i).card then some (t, ps)
    else
      if rand t % n = i ∨ maxPeer ≤ (psGet ps (rand t % n)).card then
        innerFill n minPeer maxPeer rand i fuel (t + 1) ps
      else
        innerFill n minPeer maxPeer rand i fuel (t + 1) (addEdge ps i (rand t % n))

/-- One full `for i := range nodes` pass of the generation loop. -/
def fillPass (n minPeer maxPeer : Nat) (rand : Nat → Nat) (innerFuel : Nat) :
    List Nat → Nat → PeersState → Option (Nat × PeersState)
  | [], t, ps => some (t, ps)
  | i :: rest, t, ps =>
    match innerFill n minPeer maxPeer rand i innerFuel t ps with
    | none => none
    | some (t2, ps2) => fillPass n minPeer maxPeer rand innerFuel rest t2 ps2

/-- The outer `for !check()` loop of `setPeers`: unbounded in the source,
`fuel`-indexed here. -/
def setPeersLoop (n minPeer maxPeer : Nat) (rand : Nat → Nat) (innerFuel : Nat) :
    Nat → Nat → PeersState → Option PeersState
  | 0, _, _ => none
  | fuel + 1, t, ps =>
    if checkDeg n minPeer maxPeer ps then some ps
    else
      match fillPass n minPeer maxPeer rand innerFuel (List.range n) t ps with
      | none => none
      | some (t2, ps2) => setPeersLoop n minPeer maxPeer rand innerFuel fuel t2 ps2

/-- `setPeers` of `src/cmd/ethemu/gencmd.go` (degree-bounded policy):
start from `n` empty peer sets and run the generation loop. -/
def setPeers (n minPeer maxPeer : Nat) (rand : Nat → Nat)
    (outerFuel innerFuel : Nat) : Option PeersState :=
  setPeersLoop n minPeer maxPeer rand innerFuel outerFuel 0 (List.replicate n ∅)

/-- The final `nodes[i].Peers` list: the addresses of the members of
`peers[i]` (`addr` is the identity-to-address assignment made by
`setAddr`). -/
def peerAddrList (ps : PeersState) (addr : Nat → Nat) (i : Nat) : List Nat :=
  ((psGet ps i).sort (· ≤ ·)).map addr

/-- Invariant maintained by the generation loop: one entry per node, no
set contains its own index, members are node indices, and membership is
symmetric. -/
structure PeersInv (n : Nat) (ps : PeersState) : Prop where
  len : ps.length = n
  noSelf : ∀ i, i ∉ psGet ps i
  inRange : ∀ i, psGet ps i ⊆ Finset.range n
  symmetric : ∀ i j, j ∈ psGet ps i ↔ i ∈ psGet ps j

/-- `setPeers` run as written on the infeasible input `N = 2`,
`minPeer = maxPeer = 2`: the generation loop never returns, whatever the
random draws and however much fuel it is given. -/
def setPeersInfeasibleDiverges : Prop :=
  ∀ (rand : Nat → Nat) (outerFuel innerFuel : Nat),
    setPeers 2 2 2 rand outerFuel innerFuel = none

end Gen

namespace Density

/-- `getPij` of the density-probability `setPeers` (the variant
`cmd/ethemu/gencmd.go` embedded in `src/cmd/ethemu/main.go`, lines
1540-1561): the blended connection probability
`prop·dens + (1-prop)·θ(i,j)`, with `θ = 1` iff
`dens - min(|i-j|, N-|i-j|)/maxDis ≥ 0`. Go's float64 arithmetic is
modelled exactly over `ℚ`. -/
def getPij (nNodes : Nat) (dens prop : ℚ) (maxDis i j : Nat) : ℚ :=
  prop * dens + (1 - prop) *
    (if 0 ≤ dens - ((min (max i j - min i j) (nNodes - (max i j - min i j)) : Nat) : ℚ)
        / ((maxDis : Nat) : ℚ) then 1 else 0)

/-- The per-pair draw `float64(rand.Intn(100)) / float64(100)`:
`rand i j` models the `math/rand` stream value consumed at pair `(i,j)`. -/
def pairDraw (rand : Nat → Nat → Nat) (i j : Nat) : ℚ :=
  ((rand i j % 100 : Nat) : ℚ) / 100

/-- The density-probability `setPeers`: for every ordered pair `i < j` of
node indices, connect iff the pair's draw is below
`getPij(density, 0.25, N/2, i, j)`, with
`density = peerNum / (N - 1)` and `maxDist = N / 2` (Go integer
division). Returns the list of connected pairs `(i, j)`, `i < j`; the
source then appends `nodes[j].Address` to `nodes[i].Peers` and vice
versa for each such pair. -/
def setPeers (nNodes peerNum : Nat) (rand : Nat → Nat → Nat) : List (Nat × Nat) :=
  (List.range nNodes).flatMap (fun i =>
    (((List.range nNodes).filter (fun j => decide (i < j) &&
        decide (pairDraw rand i j <
          getPij nNodes ((peerNum : ℚ) / ((nNodes : ℚ) - 1)) (1/4) (nNodes / 2) i j))).map
      (fun j => (i, j))))

/-- θ(i,j) as the spec words it: 1 exactly when the circular distance
`min(|i-j|, N-|i-j|)`, normalized by `N/2`, is within the density. -/
def thetaSpec (nNodes : Nat) (density : ℚ) (i j : Nat) : ℚ :=
  if ((min (max i j - min i j) (nNodes - (max i j - min i j)) : Nat) : ℚ)
      / ((nNodes / 2 : Nat) : ℚ) ≤ density then 1 else 0

/-- The connection probability as the spec words it:
`p(i,j) = 0.25·density + 0.75·θ(i,j)`. -/
def pSpec (nNodes : Nat) (density : ℚ) (i j : Nat) : ℚ :=
  (1/4) * density + (3/4) * thetaSpec nNodes density i j

end Density

namespace Workload

/-- The continuous transaction task's sender pool
(`src/cmd/ethemu/main.go`, lines 225-230): the addresses of the
descriptor's non-miner nodes. -/
def nonMinerAddrs (nodes : List Emu.Node) : List Nat :=
  (nodes.filter (fun nd => !nd.IsMiner)).map (·.Address)

/-- The destination-resampling loop `for from == to { to =
addrs[rand.Intn(len(addrs))] }`: `fr` is the drawn source, `to` the
current candidate (initially `fr`), `t` the random-stream position. The
loop is unbounded in the source; `none` means it is still running when
`fuel` runs out. -/
def pickTxTo (addrs : List Nat) (rand : Nat → Nat) (fr : Nat) :
    Nat → Nat → Nat → Option Nat
  | 0, _, _ => none
  | fuel + 1, t, dst =>
    if fr = dst then pickTxTo addrs rand fr fuel (t + 1) (addrs.getD (rand t % addrs.length) 0)
    else some dst

/-- One source/destination selection of the continuous transaction task:
`from := addrs[rand.Intn(len(addrs))]`, then the resampling loop for
`to`. `rand.Intn(0)` on an empty pool panics in Go, modelled as `none`. -/
def pickTxPair (addrs : List Nat) (rand : Nat → Nat) (fuel : Nat) :
    Option (Nat × Nat) :=
  match addrs with
  | [] => none
  | _ :: _ =>
    match pickTxTo addrs rand (addrs.getD (rand 0 % addrs.length) 0) fuel 1
        (addrs.getD (rand 0 % addrs.length) 0) with
    | none => none
    | some dst => some (addrs.getD (rand 0 % addrs.length) 0, dst)

/-- The inter-transaction sleep draw of the continuous task:
`rand.Intn(int(sleepMax-sleepMin)) + int(sleepMin)` milliseconds.
`rand.Intn(n)` panics for `n ≤ 0` (modelled `none`); `r` models the
stream value consumed. Operands are `uint64`; for
`minInterval ≤ maxInterval` the subtraction does not wrap and equals
`Nat` subtraction. -/
def txSleepDraw (minInterval maxInterval : Nat) (r : Nat) : Option Nat :=
  if maxInterval - minInterval = 0 then none
  else some (r % (maxInterval - minInterval) + minInterval)

/-- A two-node descriptor roster with exactly one non-miner node. -/
def rosterOneNonMiner : List Emu.Node := [⟨0, 5, false, []⟩, ⟨1, 6, true, []⟩]

/-- A three-node descriptor roster with two non-miner nodes. -/
def rosterTwoNonMiners : List Emu.Node :=
  [⟨0, 5, false, []⟩, ⟨1, 7, false, []⟩, ⟨2, 9, true, []⟩]

/-- The continuous transaction task on a concrete descriptor with exactly
one non-miner address: the destination-resampling loop never returns,
whatever the random draws and however much fuel it gets — the task
retries forever instead of any configuration error being surfaced. -/
def pickTxPairSingletonDiverges : Prop :=
  ∀ (rand : Nat → Nat) (fuel : Nat),
    pickTxPair (nonMinerAddrs rosterOneNonMiner) rand fuel = none

end Workload

namespace Bench

/-- One polling pass of the transaction-count barrier
(`src/cmd/ethemu/main.go`, lines 578-595): `pres` lists, per node, whether
`sealer.TxPool().Get(hash)` found the submitted transaction (`true` =
present). `absentCount` is the loop's `counter`: the number of pools in
which the transaction is absent (`tx == nil`). -/
def absentCount (pres : List Bool) : Nat := (pres.filter (fun b => !b)).length

/-- Result of the transaction-count mode's inner busy-poll loop. -/
inductive TxPollRes where
  | exitRun (txNum : Nat)
  | converged (k txNum : Nat)
  | fuelOut
deriving DecidableEq

/-- The inner `for` busy-poll of transaction-count mode: at pass `k` the
pool observation is `obs k`; the loop breaks (`converged`) when
`counter == 0`, i.e. when the transaction is present in every pool;
otherwise it increments `txNum` and exits the whole process
(`exitRun`, `os.Exit(0)` after `txLog.Sync()`) once `txNum` reaches
5050. -/
def txPollLoop (obs : Nat → List Bool) : Nat → Nat → Nat → TxPollRes
  | 0, _, _ => .fuelOut
  | fuel + 1, k, txNum =>
    if absentCount (obs k) = 0 then .converged (k + 1) txNum
    else if 5050 ≤ txNum + 1 then .exitRun (txNum + 1)
    else txPollLoop obs fuel (k + 1) (txNum + 1)

/-- Outcome of a transaction-count-mode run: `exited` is `os.Exit(0)`
with the number of transactions submitted so far and the final `txNum`. -/
inductive TxModeOutcome where
  | exited (submitted txNum : Nat)
  | fuelOut
deriving DecidableEq

/-- The transaction-count-mode driver loop: each outer iteration submits
one transaction (`SendTransaction`; modelled by the `submitted` counter —
source/destination selection is `Workload.pickTxPair` over all addresses)
and then runs the busy-poll barrier. `pollFuel` bounds each barrier,
`fuel` the outer iterations. -/
def txModeRun (obs : Nat → List Bool) (pollFuel : Nat) :
    Nat → Nat → Nat → Nat → TxModeOutcome
  | 0, _, _, _ => .fuelOut
  | fuel + 1, k, txNum, submitted =>
    match txPollLoop obs pollFuel k txNum with
    | .exitRun t => .exited (submitted + 1) t
    | .converged k2 t => txModeRun obs pollFuel fuel k2 t (submitted + 1)
    | .fuelOut => .fuelOut

/-- A pool observation under which the submitted transaction is absent
from the single node's pool at every pass. -/
def obsAllAbsent : Nat → List Bool := fun _ => [false]

/-- Network state seen by the block-height benchmark driver: the chain
height of each node, plus the number of triggered seals
(`sealer.Miner().Work()`) whose block has not yet landed. The external
node collaborator is modelled as propagating every sealed block to every
node by the time of the next poll — the most favourable propagation
assumption. -/
structure BHNet where
  heights : List Nat
  pending : Nat
deriving DecidableEq

/-- Observation step: pending sealed blocks land on every chain before
the heights are read. -/
def netPoll (net : BHNet) : BHNet :=
  { heights := net.heights.map (· + net.pending), pending := 0 }

/-- The inner busy-poll of block-height mode
(`src/cmd/ethemu/main.go`, lines 608-618): spin until every node's
`CurrentBlock().Number` equals `curHeight` (`counter == 0`). -/
def bhPollUntil (cur : Nat) : Nat → BHNet → Option BHNet
  | 0, _ => none
  | fuel + 1, net =>
    if (netPoll net).heights.all (fun h => h == cur) then some (netPoll net)
    else bhPollUntil cur fuel (netPoll net)

/-- Outcome of a block-height-mode run: `exited` is `os.Exit(0)` after
`blockLog.Sync()`, carrying the network state at the instant of exit. -/
inductive BHOutcome where
  | exited (final : BHNet)
  | fuelOut
deriving DecidableEq

/-- The block-height-mode driver loop: busy-poll until all heights equal
`cur`, sleep one second (`time.Sleep(time.Second)` — timing is not
modelled), pick `sealers[rand.Intn(len(sealers))]` (the sealer list holds
every node; the chosen index does not affect the modelled heights, since
a sealed block reaches every node by the next poll), trigger
`Miner().Work()` (one more pending block), advance `cur`, and exit the
process as soon as `cur` reaches 110 — without any further poll. -/
def bhRun (rand : Nat → Nat) (pollFuel : Nat) : Nat → Nat → BHNet → BHOutcome
  | 0, _, _ => .fuelOut
  | fuel + 1, cur, net =>
    match bhPollUntil cur pollFuel net with
    | none => .fuelOut
    | some net2 =>
      if 110 ≤ cur + 1 then .exited { net2 with pending := net2.pending + 1 }
      else bhRun rand pollFuel fuel (cur + 1) { net2 with pending := net2.pending + 1 }

end Bench

/-- A concrete two-node run descriptor, used by the witnesses. -/
def cfgSample : Emu.Config :=
  ⟨3, 600, 3000, [(11, ⟨0, 11, false, [12]⟩), (12, ⟨1, 12, true, [11]⟩)], 0, 0⟩

/-- The zero descriptor (a fresh process's global before `LoadConfig`). -/
def cfgZero : Emu.Config := ⟨0, 0, 0, [], 0, 0⟩

/-! ## Theorems -/

theorem decodeNatList_encode (l : List Nat) :
    Emu.decodeNatList (l.map Emu.Jval.num) = some l := by
  induction l with
  | nil => rfl
  | cons x xs ih => simp [Emu.decodeNatList, ih]

theorem decodeNode_encodeNode (nd : Emu.Node) :
    Emu.decodeNode (Emu.encodeNode nd) = some nd := by
  cases nd with
  | mk i a m ps => simp [Emu.encodeNode, Emu.decodeNode, decodeNatList_encode]

theorem decodeNodeMap_encodeNodeMap (nodes : List (Nat × Emu.Node)) :
    Emu.decodeNodeMap (Emu.encodeNodeMap nodes) = some nodes := by
  induction nodes with
  | nil => rfl
  | cons p rest ih =>
    obtain ⟨a, nd⟩ := p
    simp only [Emu.encodeNodeMap, List.map_cons] at ih ⊢
    simp [Emu.decodeNodeMap, decodeNode_encodeNode, ih]

theorem decodeConfig_encodeConfig (g : Emu.Config) :
    Emu.decodeConfig (Emu.encodeConfig g) = some g := by
  cases g with
  | mk p mn mx nodes la bw =>
    simp [Emu.encodeConfig, Emu.decodeConfig, decodeNodeMap_encodeNodeMap]

/-- C5: for every run descriptor `d`, storing it to a data directory and
then loading from that directory succeeds and returns a descriptor equal
to `d`; loading from a directory whose file system holds no config file
fails with a not-found error and returns no descriptor (the global stays
as it was). -/
theorem storeConfig_loadConfig_roundTrip :
    (∀ (dir : String) (d : Emu.Config) (fs : Emu.FS) (g : Emu.Config),
      Emu.LoadConfig dir (Emu.StoreConfig dir d fs) g = (Except.ok (), d)) ∧
    (∀ (dir : String) (fs : Emu.FS) (g : Emu.Config),
      Emu.fsRead fs (Emu.configPath dir) = none →
        Emu.LoadConfig dir fs g = (Except.error Emu.LoadError.notFound, g)) := by
  constructor
  · intro dir d fs g
    simp [Emu.LoadConfig, Emu.StoreConfig, Emu.fsRead, List.find?,
      decodeConfig_encodeConfig]
  · intro dir fs g h
    simp [Emu.LoadConfig, h]

/-- Witness for C5 at a concrete descriptor and directory. -/
theorem storeConfig_loadConfig_roundTrip_witness :
    Emu.LoadConfig "data" (Emu.StoreConfig "data" cfgSample []) cfgZero
        = (Except.ok (), cfgSample) ∧
      Emu.LoadConfig "data" [] cfgZero
        = (Except.error Emu.LoadError.notFound, cfgZero) :=
  ⟨storeConfig_loadConfig_roundTrip.1 "data" cfgSample [] cfgZero,
   storeConfig_loadConfig_roundTrip.2 "data" [] cfgZero rfl⟩

/-- C10: when the config file is absent from the data directory,
`LoadConfig` returns an error and leaves the global configuration exactly
as it was before the call. -/
theorem loadConfig_notFound_leaves_global :
    ∀ (dir : String) (fs : Emu.FS) (g : Emu.Config),
      Emu.fsRead fs (Emu.configPath dir) = none →
        (Emu.LoadConfig dir fs g).1 = Except.error Emu.LoadError.notFound ∧
          (Emu.LoadConfig dir fs g).2 = g := by
  intro dir fs g h
  simp [Emu.LoadConfig, h]

/-- Witness for C10: loading from an empty data directory with a concrete
pre-call global. -/
theorem loadConfig_notFound_leaves_global_witness :
    (Emu.LoadConfig "data" [] cfgSample).1 = Except.error Emu.LoadError.notFound ∧
      (Emu.LoadConfig "data" [] cfgSample).2 = cfgSample :=
  loadConfig_notFound_leaves_global "data" [] cfgSample rfl

theorem psGet_set_self (ps : Gen.PeersState) (i : Nat) (s : Finset Nat)
    (h : i < ps.length) : Gen.psGet (ps.set i s) i = s := by
  induction ps generalizing i with
  | nil => simp at h
  | cons hd tl ih =>
    cases i with
    | zero => rfl
    | succ k => exact ih k (Nat.lt_of_succ_lt_succ (by simpa using h))

theorem psGet_set_ne (ps : Gen.PeersState) (i k : Nat) (s : Finset Nat)
    (h : i ≠ k) : Gen.psGet (ps.set i s) k = Gen.psGet ps k := by
  induction ps generalizing i k with
  | nil => rfl
  | cons hd tl ih =>
    cases i with
    | zero =>
      cases k with
      | zero => exact absurd rfl h
      | succ k2 => rfl
    | succ i2 =>
      cases k with
      | zero => rfl
      | succ k2 => exact ih i2 k2 (fun e => h (by rw [e]))

theorem psGet_replicate (n i : Nat) :
    Gen.psGet (List.replicate n (∅ : Finset Nat)) i = ∅ := by
  induction n generalizing i with
  | zero => rfl
  | succ m ih =>
    cases i with
    | zero => rfl
    | succ k => exact ih k

theorem psGet_addEdge (ps : Gen.PeersState) (i j k : Nat) (hi : i < ps.length)
    (hj : j < ps.length) (hij : i ≠ j) :
    Gen.psGet (Gen.addEdge ps i j) k =
      if k = j then insert i (Gen.psGet ps j)
      else if k = i then insert j (Gen.psGet ps i) else Gen.psGet ps k := by
  unfold Gen.addEdge
  by_cases hkj : k = j
  · subst hkj
    rw [if_pos rfl, psGet_set_self _ _ _ (by simpa using hj),
      psGet_set_ne _ _ _ _ hij]
  · rw [if_neg hkj, psGet_set_ne _ _ _ _ (fun e => hkj e.symm)]
    by_cases hki : k = i
    · subst hki
      rw [if_pos rfl, psGet_set_self _ _ _ hi]
    · rw [if_neg hki, psGet_set_ne _ _ _ _ (fun e => hki e.symm)]

theorem addEdge_inv {n : Nat} {ps : Gen.PeersState} (inv : Gen.PeersInv n ps)
    {i j : Nat} (hi : i < n) (hj : j < n) (hij : i ≠ j) :
    Gen.PeersInv n (Gen.addEdge ps i j) := by
  have hi2 : i < ps.length := inv.len ▸ hi
  have hj2 : j < ps.length := inv.len ▸ hj
  constructor
  · unfold Gen.addEdge
    simp [inv.len]
  · intro k
    rw [psGet_addEdge ps i j k hi2 hj2 hij]
    by_cases hkj : k = j
    · subst hkj
      rw [if_pos rfl]
      intro hmem
      rcases Finset.mem_insert.mp hmem with e | e
      · exact hij e.symm
      · exact inv.noSelf k e
    · rw [if_neg hkj]
      by_cases hki : k = i
      · subst hki
        rw [if_pos rfl]
        intro hmem
        rcases Finset.mem_insert.mp hmem with e | e
        · exact hij e
        · exact inv.noSelf k e
      · rw [if_neg hki]
        exact inv.noSelf k
  · intro k
    rw [psGet_addEdge ps i j k hi2 hj2 hij]
    by_cases hkj : k = j
    · subst hkj
      rw [if_pos rfl]
      exact Finset.insert_subset (Finset.mem_range.mpr hi) (inv.inRange k)
    · rw [if_neg hkj]
      by_cases hki : k = i
      · subst hki
        rw [if_pos rfl]
        exact Finset.insert_subset (Finset.mem_range.mpr hj) (inv.inRange k)
      · rw [if_neg hki]
        exact inv.inRange k
  · intro k l
    rw [psGet_addEdge ps i j k hi2 hj2 hij, psGet_addEdge ps i j l hi2 hj2 hij]
    by_cases hkj : k = j
    · rw [if_pos hkj]
      by_cases hlj : l = j
      · rw [if_pos hlj]
        simp [hkj, hlj]
      · rw [if_neg hlj]
        by_cases hli : l = i
        · rw [if_pos hli]
          simp [hkj, hli, Finset.mem_insert]
        · rw [if_neg hli]
          simp [hkj, hli, Finset.mem_insert, inv.symmetric j l]
    · rw [if_neg hkj]
      by_cases hki : k = i
      · rw [if_pos hki]
        by_cases hlj : l = j
        · rw [if_pos hlj]
          simp [hki, hlj, Finset.mem_insert]
        · rw [if_neg hlj]
          by_cases hli : l = i
          · rw [if_pos hli]
            simp [hki, hli]
          · rw [if_neg hli]
            simp [hki, hlj, Finset.mem_insert, inv.symmetric i l]
      · rw [if_neg hki]
        by_cases hlj : l = j
        · rw [if_pos hlj]
          simp [hlj, hki, Finset.mem_insert, inv.symmetric k j]
        · rw [if_neg hlj]
          by_cases hli : l = i
          · rw [if_pos hli]
            simp [hli, hkj, Finset.mem_insert, inv.symmetric k i]
          · rw [if_neg hli]
            exact inv.symmetric k l

theorem innerFill_inv {n minPeer maxPeer : Nat} {rand : Nat → Nat} {i : Nat}
    (hi : i < n) :
    ∀ (fuel t : Nat) (ps : Gen.PeersState) (res : Nat × Gen.PeersState),
      Gen.PeersInv n ps →
      Gen.innerFill n minPeer maxPeer rand i fuel t ps = some res →
      Gen.PeersInv n res.2 := by
  intro fuel
  induction fuel with
  | zero => intro t ps res _ h; exact absurd h (by simp [Gen.innerFill])
  | succ f ih =>
    intro t ps res inv h
    rw [Gen.innerFill] at h
    by_cases hcard : minPeer ≤ (Gen.psGet ps i).card
    · rw [if_pos hcard] at h
      cases h
      exact inv
    · rw [if_neg hcard] at h
      by_cases hskip : rand t % n = i ∨ maxPeer ≤ (Gen.psGet ps (rand t % n)).card
      · rw [if_pos hskip] at h
        exact ih _ _ _ inv h
      · rw [if_neg hskip] at h
        push_neg at hskip
        have hn : 0 < n := by omega
        have hjn : rand t % n < n := Nat.mod_lt _ hn
        exact ih _ _ _ (addEdge_inv inv hi hjn (fun e => hskip.1 e.symm)) h

theorem fillPass_inv {n minPeer maxPeer : Nat} {rand : Nat → Nat}
    {innerFuel : Nat} :
    ∀ (is : List Nat) (t : Nat) (ps : Gen.PeersState) (res : Nat × Gen.PeersState),
      (∀ i ∈ is, i < n) → Gen.PeersInv n ps →
      Gen.fillPass n minPeer maxPeer rand innerFuel is t ps = some res →
      Gen.PeersInv n res.2 := by
  intro is
  induction is with
  | nil =>
    intro t ps res _ inv h
    cases h
    exact inv
  | cons i rest ih =>
    intro t ps res hmem inv h
    rw [Gen.fillPass] at h
    cases hres : Gen.innerFill n minPeer maxPeer rand i innerFuel t ps with
    | none => rw [hres] at h; exact absurd h (by simp)
    | some r =>
      rw [hres] at h
      have inv2 := innerFill_inv (hmem i (by simp)) innerFuel t ps r inv hres
      exact ih r.1 r.2 res (fun x hx => hmem x (by simp [hx])) inv2 h

theorem setPeersLoop_spec {n minPeer maxPeer : Nat} {rand : Nat → Nat}
    {innerFuel : Nat} :
    ∀ (fuel t : Nat) (ps posOut : Gen.PeersState),
      Gen.PeersInv n ps →
      Gen.setPeersLoop n minPeer maxPeer rand innerFuel fuel t ps = some posOut →
      Gen.PeersInv n posOut ∧ Gen.checkDeg n minPeer maxPeer posOut = true := by
  intro fuel
  induction fuel with
  | zero => intro t ps posOut _ h; exact absurd h (by simp [Gen.setPeersLoop])
  | succ f ih =>
    intro t ps posOut inv h
    rw [Gen.setPeersLoop] at h
    by_cases hchk : Gen.checkDeg n minPeer maxPeer ps = true
    · rw [if_pos hchk] at h
      cases h
      exact ⟨inv, hchk⟩
    · rw [if_neg hchk] at h
      cases hres : Gen.fillPass n minPeer maxPeer rand innerFuel (List.range n) t ps with
      | none => rw [hres] at h; exact absurd h (by simp)
      | some r =>
        rw [hres] at h
        have inv2 := fillPass_inv (List.range n) t ps r
          (fun x hx => List.mem_range.mp hx) inv hres
        exact ih r.1 r.2 posOut inv2 h

theorem peersInv_init (n : Nat) : Gen.PeersInv n (List.replicate n ∅) := by
  constructor
  · exact List.length_replicate n ∅
  · intro i; simp [psGet_replicate]
  · intro i; simp [psGet_replicate]
  · intro i j; simp [psGet_replicate]

theorem checkDeg_iff {n minPeer maxPeer : Nat} {ps : Gen.PeersState} :
    Gen.checkDeg n minPeer maxPeer ps = true ↔
      ∀ i, i < n → minPeer ≤ (Gen.psGet ps i).card ∧ (Gen.psGet ps i).card ≤ maxPeer := by
  simp [Gen.checkDeg, List.all_eq_true, List.mem_range]

/-- C3: whenever the degree-bounded generation loop terminates, every
node's final degree lies in `[minPeer, maxPeer]`, the peer relation is
symmetric with no self-loops, every peer is a node index, and — for any
injective address assignment — the persisted peer lists contain neither
the node's own address nor a duplicate entry, have length equal to the
node's degree, and list addresses symmetrically. -/
theorem setPeers_degree_bounds_symmetric :
    ∀ (n minPeer maxPeer : Nat) (rand : Nat → Nat) (outerFuel innerFuel : Nat)
      (ps : Gen.PeersState),
      Gen.setPeers n minPeer maxPeer rand outerFuel innerFuel = some ps →
      (∀ i, i < n → minPeer ≤ (Gen.psGet ps i).card ∧ (Gen.psGet ps i).card ≤ maxPeer) ∧
      (∀ i j, j ∈ Gen.psGet ps i ↔ i ∈ Gen.psGet ps j) ∧
      (∀ i, i ∉ Gen.psGet ps i) ∧
      (∀ i, Gen.psGet ps i ⊆ Finset.range n) ∧
      (∀ addr : Nat → Nat, Function.Injective addr → ∀ i,
        (Gen.peerAddrList ps addr i).Nodup ∧
        addr i ∉ Gen.peerAddrList ps addr i ∧
        (Gen.peerAddrList ps addr i).length = (Gen.psGet ps i).card ∧
        (∀ j, addr j ∈ Gen.peerAddrList ps addr i ↔ addr i ∈ Gen.peerAddrList ps addr j)) := by
  intro n minPeer maxPeer rand oF iF ps h
  obtain ⟨inv, hchk⟩ := setPeersLoop_spec oF 0 _ ps (peersInv_init n) h
  have hmem : ∀ (addr : Nat → Nat), Function.Injective addr →
      ∀ a b, addr a ∈ Gen.peerAddrList ps addr b ↔ a ∈ Gen.psGet ps b := by
    intro addr hinj a b
    simp only [Gen.peerAddrList, List.mem_map]
    constructor
    · rintro ⟨x, hx, he⟩
      rw [← hinj he]
      exact (Finset.mem_sort _).mp hx
    · intro hab
      exact ⟨a, (Finset.mem_sort _).mpr hab, rfl⟩
  refine ⟨fun i hi => checkDeg_iff.mp hchk i hi, inv.symmetric, inv.noSelf,
    inv.inRange, ?_⟩
  intro addr hinj i
  refine ⟨(Finset.sort_nodup _ _).map hinj, ?_, ?_, ?_⟩
  · intro hmem2
    exact inv.noSelf i ((hmem addr hinj i i).mp hmem2)
  · rw [Gen.peerAddrList, List.length_map, Finset.length_sort]
  · intro j
    rw [hmem addr hinj j i, hmem addr hinj i j]
    exact inv.symmetric i j

/-- The peer-set state of a concrete terminating run of the
degree-bounded generator (`N = 3`, `minPeer = 1`, `maxPeer = 2`). -/
def psWitness : Gen.PeersState :=
  (Gen.setPeers 3 1 2 (fun t => t + 1) 2 8).getD []

/-- Witness for C3: the concrete run terminates and its output meets the
degree bounds and excludes self-loops at node 0. -/
theorem setPeers_degree_bounds_symmetric_witness :
    Gen.setPeers 3 1 2 (fun t => t + 1) 2 8 = some psWitness ∧
      1 ≤ (Gen.psGet psWitness 0).card ∧ (Gen.psGet psWitness 0).card ≤ 2 ∧
      0 ∉ Gen.psGet psWitness 0 := by
  have h : Gen.setPeers 3 1 2 (fun t => t + 1) 2 8 = some psWitness := rfl
  have res := setPeers_degree_bounds_symmetric 3 1 2 (fun t => t + 1) 2 8 psWitness h
  exact ⟨h, (res.1 0 (by decide)).1, (res.1 0 (by decide)).2, res.2.2.1 0⟩

theorem psGet_card_le {n : Nat} {ps : Gen.PeersState} (inv : Gen.PeersInv n ps)
    {i : Nat} (hi : i < n) : (Gen.psGet ps i).card ≤ n - 1 := by
  have hsub : Gen.psGet ps i ⊆ (Finset.range n).erase i := by
    intro x hx
    refine Finset.mem_erase.mpr ⟨?_, inv.inRange i hx⟩
    intro e
    exact inv.noSelf i (e ▸ hx)
  calc (Gen.psGet ps i).card ≤ ((Finset.range n).erase i).card :=
      Finset.card_le_card hsub
    _ = n - 1 := by
      rw [Finset.card_erase_of_mem (Finset.mem_range.mpr hi), Finset.card_range]

theorem innerFill_infeasible {n minPeer maxPeer : Nat} {rand : Nat → Nat}
    {i : Nat} (hi : i < n) (hmin : n - 1 < minPeer) :
    ∀ (fuel t : Nat) (ps : Gen.PeersState), Gen.PeersInv n ps →
      Gen.innerFill n minPeer maxPeer rand i fuel t ps = none := by
  intro fuel
  induction fuel with
  | zero => intro t ps _; rfl
  | succ f ih =>
    intro t ps inv
    have hcard : ¬ minPeer ≤ (Gen.psGet ps i).card := by
      have := psGet_card_le inv hi
      omega
    rw [Gen.innerFill, if_neg hcard]
    by_cases hskip : rand t % n = i ∨ maxPeer ≤ (Gen.psGet ps (rand t % n)).card
    · rw [if_pos hskip]
      exact ih _ _ inv
    · rw [if_neg hskip]
      push_neg at hskip
      have hn : 0 < n := by omega
      exact ih _ _ (addEdge_inv inv hi (Nat.mod_lt _ hn) (fun e => hskip.1 e.symm))

theorem fillPass_infeasible {n minPeer maxPeer : Nat} {rand : Nat → Nat}
    {innerFuel : Nat} (hn : 1 ≤ n) (hmin : n - 1 < minPeer) :
    ∀ (t : Nat) (ps : Gen.PeersState), Gen.PeersInv n ps →
      Gen.fillPass n minPeer maxPeer rand innerFuel (List.range n) t ps = none := by
  intro t ps inv
  obtain ⟨m, rfl⟩ : ∃ m, n = m + 1 := ⟨n - 1, by omega⟩
  rw [List.range_succ_eq_map, Gen.fillPass,
    innerFill_infeasible (by omega) hmin innerFuel t ps inv]

theorem setPeersLoop_infeasible {n minPeer maxPeer : Nat} {rand : Nat → Nat}
    {innerFuel : Nat} (hn : 1 ≤ n) (hmin : n - 1 < minPeer) :
    ∀ (fuel t : Nat) (ps : Gen.PeersState), Gen.PeersInv n ps →
      Gen.setPeersLoop n minPeer maxPeer rand innerFuel fuel t ps = none := by
  intro fuel
  induction fuel with
  | zero => intro t ps _; rfl
  | succ f ih =>
    intro t ps inv
    have hchk : ¬ Gen.checkDeg n minPeer maxPeer ps = true := by
      intro hc
      have h1 := (checkDeg_iff.mp hc 0 (by omega)).1
      have h2 := psGet_card_le inv (show 0 < n by omega)
      omega
    rw [Gen.setPeersLoop, if_neg hchk, fillPass_infeasible hn hmin t ps inv]

theorem setPeers_infeasible_none {n minPeer maxPeer : Nat} (rand : Nat → Nat)
    (outerFuel innerFuel : Nat) (hn : 1 ≤ n) (hmin : n - 1 < minPeer) :
    Gen.setPeers n minPeer maxPeer rand outerFuel innerFuel = none :=
  setPeersLoop_infeasible hn hmin outerFuel 0 _ (peersInv_init n)

/-- C4 (amended): the degree-bounded generator has no iteration cap and
does not terminate on every input: with infeasible degree constraints
(`minPeer > N - 1`, `N ≥ 1`) the generation loop never finishes — the
fuel-indexed model returns `none` for every fuel bound and every random
stream. -/
theorem setPeers_no_iteration_cap :
    ∀ (n minPeer maxPeer : Nat) (rand : Nat → Nat) (outerFuel innerFuel : Nat),
      1 ≤ n → n - 1 < minPeer →
      Gen.setPeers n minPeer maxPeer rand outerFuel innerFuel = none :=
  fun _n _minPeer _maxPeer rand oF iF hn hmin =>
    setPeers_infeasible_none rand oF iF hn hmin

/-- Counterexample for C4: with `N = 2` and `minPeer = maxPeer = 2` (an
infeasible bound, since each node has only one possible peer) the
generation loop runs forever — no hard iteration cap stops it. -/
theorem setPeers_cap_counterexample : Gen.setPeersInfeasibleDiverges :=
  fun rand oF iF => setPeers_infeasible_none rand oF iF (by omega) (by omega)

/-- Witness for C4's amended theorem at a concrete infeasible input. -/
theorem setPeers_no_iteration_cap_witness :
    Gen.setPeers 2 2 2 (fun t => t) 3 4 = none :=
  setPeers_no_iteration_cap 2 2 2 (fun t => t) 3 4 (by omega) (by omega)

theorem getPij_eq_pSpec (nNodes : Nat) (dens : ℚ) (i j : Nat) :
    Density.getPij nNodes dens (1/4) (nNodes / 2) i j =
      Density.pSpec nNodes dens i j := by
  unfold Density.getPij Density.pSpec Density.thetaSpec
  simp only [sub_nonneg]
  norm_num

theorem pairDraw_nonneg (rand : Nat → Nat → Nat) (i j : Nat) :
    0 ≤ Density.pairDraw rand i j := by
  unfold Density.pairDraw
  positivity

theorem pairDraw_lt_one (rand : Nat → Nat → Nat) (i j : Nat) :
    Density.pairDraw rand i j < 1 := by
  unfold Density.pairDraw
  rw [div_lt_one (by norm_num)]
  exact_mod_cast Nat.mod_lt _ (by norm_num)

/-- C6: the density-probability generator connects the unordered pair
`(i, j)` (listed as `i < j`) exactly when the pair's uniform draw — which
always lies in `[0, 1)` — is below
`p(i,j) = 0.25·density + 0.75·θ(i,j)` with `density = peerNum/(N-1)` and
`θ(i,j) = 1` iff the circular distance `min(|i-j|, N-|i-j|)` normalized
by `N/2` is within the density. -/
theorem setPeersDensity_connect_iff :
    ∀ (nNodes peerNum : Nat) (rand : Nat → Nat → Nat) (i j : Nat),
      ((i, j) ∈ Density.setPeers nNodes peerNum rand ↔
        (i < j ∧ j < nNodes ∧
          Density.pairDraw rand i j <
            Density.pSpec nNodes ((peerNum : ℚ) / ((nNodes : ℚ) - 1)) i j)) ∧
      0 ≤ Density.pairDraw rand i j ∧ Density.pairDraw rand i j < 1 := by
  intro nNodes peerNum rand i j
  refine ⟨?_, pairDraw_nonneg rand i j, pairDraw_lt_one rand i j⟩
  rw [show Density.pSpec nNodes ((peerNum : ℚ) / ((nNodes : ℚ) - 1)) i j =
    Density.getPij nNodes ((peerNum : ℚ) / ((nNodes : ℚ) - 1)) (1/4) (nNodes / 2) i j
    from (getPij_eq_pSpec nNodes _ i j).symm]
  simp only [Density.setPeers, List.mem_flatMap, List.mem_map, List.mem_filter,
    List.mem_range, Bool.and_eq_true, decide_eq_true_eq, Prod.mk.injEq]
  constructor
  · rintro ⟨a, ha, b, ⟨⟨hb, hab, hdraw⟩, rfl, rfl⟩⟩
    exact ⟨hab, hb, hdraw⟩
  · rintro ⟨hij, hj, hdraw⟩
    exact ⟨i, by omega, j, ⟨hj, hij, hdraw⟩, rfl, rfl⟩

theorem pickTxTo_spec (addrs : List Nat) (rand : Nat → Nat) (fr : Nat)
    (hne : addrs ≠ []) :
    ∀ (fuel t dst res : Nat),
      Workload.pickTxTo addrs rand fr fuel t dst = some res →
      res ≠ fr ∧ (res = dst ∨ res ∈ addrs) := by
  intro fuel
  induction fuel with
  | zero => intro t dst res h; exact absurd h (by simp [Workload.pickTxTo])
  | succ f ih =>
    intro t dst res h
    rw [Workload.pickTxTo] at h
    by_cases he : fr = dst
    · rw [if_pos he] at h
      obtain ⟨h1, h2⟩ := ih _ _ _ h
      refine ⟨h1, Or.inr ?_⟩
      rcases h2 with e | e
      · rw [e]
        have hlen : 0 < addrs.length := List.length_pos.mpr hne
        rw [List.getD_eq_getElem addrs 0 (Nat.mod_lt _ hlen)]
        exact List.getElem_mem _
      · exact e
    · rw [if_neg he] at h
      cases h
      exact ⟨fun e => he e.symm, Or.inl rfl⟩

theorem pickTxPair_distinct (addrs : List Nat) (rand : Nat → Nat)
    (fuel fr dst : Nat)
    (h : Workload.pickTxPair addrs rand fuel = some (fr, dst)) :
    fr ≠ dst ∧ fr ∈ addrs ∧ dst ∈ addrs := by
  cases haddrs : addrs with
  | nil =>
    subst haddrs
    exact absurd h (by simp [Workload.pickTxPair])
  | cons a rest =>
    subst haddrs
    rw [Workload.pickTxPair] at h
    cases hres : Workload.pickTxTo (a :: rest) rand
        ((a :: rest).getD (rand 0 % (a :: rest).length) 0) fuel 1
        ((a :: rest).getD (rand 0 % (a :: rest).length) 0) with
    | none => rw [hres] at h; exact absurd h (by simp)
    | some d =>
      rw [hres] at h
      cases h
      obtain ⟨h1, h2⟩ := pickTxTo_spec (a :: rest) rand _ (by simp) fuel 1 _ dst hres
      have hfr : (a :: rest).getD (rand 0 % (a :: rest).length) 0 ∈ a :: rest := by
        rw [List.getD_eq_getElem (a :: rest) 0 (Nat.mod_lt _ (by simp))]
        exact List.getElem_mem _
      refine ⟨fun e => h1 e.symm, hfr, ?_⟩
      rcases h2 with e | e
      · rw [e]; exact hfr
      · exact e

theorem nonMinerAddrs_mem (nodes : List Emu.Node) (a : Nat) :
    a ∈ Workload.nonMinerAddrs nodes ↔
      ∃ nd, nd ∈ nodes ∧ nd.IsMiner = false ∧ nd.Address = a := by
  simp only [Workload.nonMinerAddrs, List.mem_map, List.mem_filter,
    Bool.not_eq_eq_eq_not, Bool.not_true]
  constructor
  · rintro ⟨nd, ⟨hmem, hm⟩, ha⟩
    exact ⟨nd, hmem, hm, ha⟩
  · rintro ⟨nd, hmem, hm, ha⟩
    exact ⟨nd, ⟨hmem, hm⟩, ha⟩

/-- C8: every source/destination pair the continuous transaction task
emits has `from ≠ to`; both addresses come from the sender pool, which
contains exactly the descriptor's non-miner addresses; and since the
descriptor's addresses are distinct (they key the node map), the source
is never a miner's address. -/
theorem continuousTx_pair_spec :
    ∀ (nodes : List Emu.Node) (rand : Nat → Nat) (fuel fr dst : Nat),
      Workload.pickTxPair (Workload.nonMinerAddrs nodes) rand fuel = some (fr, dst) →
      fr ≠ dst ∧
      fr ∈ Workload.nonMinerAddrs nodes ∧
      dst ∈ Workload.nonMinerAddrs nodes ∧
      (∀ a, a ∈ Workload.nonMinerAddrs nodes ↔
        ∃ nd, nd ∈ nodes ∧ nd.IsMiner = false ∧ nd.Address = a) ∧
      ((nodes.map Emu.Node.Address).Nodup →
        ∀ nd, nd ∈ nodes → nd.Address = fr → nd.IsMiner = false) := by
  intro nodes rand fuel fr dst h
  obtain ⟨h1, h2, h3⟩ := pickTxPair_distinct _ rand fuel fr dst h
  refine ⟨h1, h2, h3, nonMinerAddrs_mem nodes, ?_⟩
  intro hnodup nd hmem ha
  obtain ⟨nd0, hmem0, hm0, ha0⟩ := (nonMinerAddrs_mem nodes fr).mp h2
  have : nd = nd0 :=
    List.inj_on_of_nodup_map hnodup hmem hmem0 (by rw [ha, ha0])
  rw [this]
  exact hm0

/-- Witness for C8 at a concrete roster with two non-miner nodes
(addresses 5 and 7) and a miner (address 9). -/
theorem continuousTx_pair_spec_witness :
    (5 : Nat) ≠ 7 ∧
      (5 : Nat) ∈ Workload.nonMinerAddrs Workload.rosterTwoNonMiners ∧
      (7 : Nat) ∈ Workload.nonMinerAddrs Workload.rosterTwoNonMiners :=
  have h : Workload.pickTxPair
      (Workload.nonMinerAddrs Workload.rosterTwoNonMiners) (fun t => t) 4 =
        some (5, 7) := by decide
  have res := continuousTx_pair_spec Workload.rosterTwoNonMiners (fun t => t) 4 5 7 h
  ⟨res.1, res.2.1, res.2.2.1⟩

theorem pickTxTo_singleton (a : Nat) (rand : Nat → Nat) :
    ∀ (fuel t : Nat), Workload.pickTxTo [a] rand a fuel t a = none := by
  intro fuel
  induction fuel with
  | zero => intro t; rfl
  | succ f ih =>
    intro t
    rw [Workload.pickTxTo, if_pos rfl]
    have he : [a].getD (rand t % [a].length) 0 = a := by
      simp [Nat.mod_one]
    rw [he]
    exact ih (t + 1)

theorem pickTxPair_singleton (a : Nat) (rand : Nat → Nat) (fuel : Nat) :
    Workload.pickTxPair [a] rand fuel = none := by
  rw [Workload.pickTxPair]
  have he : [a].getD (rand 0 % [a].length) 0 = a := by
    simp [Nat.mod_one]
  rw [he, pickTxTo_singleton a rand fuel 1]

/-- C7 (amended): the run performs no configuration check on the number
of non-miner addresses and surfaces no error. With fewer than two
non-miner addresses the transaction task can never produce a
source/destination pair: with exactly one, the destination-resampling
loop retries forever (for every fuel bound and random stream), and with
zero, the source selection `addrs[rand.Intn(0)]` panics — both modelled
as `none`. -/
theorem continuousTx_fewNonMiners_no_pair :
    ∀ (nodes : List Emu.Node) (rand : Nat → Nat) (fuel : Nat),
      (Workload.nonMinerAddrs nodes).length < 2 →
      Workload.pickTxPair (Workload.nonMinerAddrs nodes) rand fuel = none := by
  intro nodes rand fuel hlen
  cases haddrs : Workload.nonMinerAddrs nodes with
  | nil => rfl
  | cons a rest =>
    rw [haddrs] at hlen
    cases rest with
    | nil => exact pickTxPair_singleton a rand fuel
    | cons b r2 => exact absurd hlen (by simp)

/-- Counterexample for C7: on a concrete descriptor with exactly one
non-miner address, the transaction task's selection loop runs forever for
every fuel bound and random stream — an infinite retry, with no
configuration error surfaced before the workload starts. -/
theorem continuousTx_singleton_counterexample :
    Workload.pickTxPairSingletonDiverges :=
  fun rand fuel => pickTxPair_singleton 5 rand fuel

/-- Witness for C7's amended theorem at a concrete descriptor and fuel. -/
theorem continuousTx_fewNonMiners_no_pair_witness :
    Workload.pickTxPair (Workload.nonMinerAddrs Workload.rosterOneNonMiner)
      (fun t => t) 9 = none :=
  continuousTx_fewNonMiners_no_pair Workload.rosterOneNonMiner
    (fun t => t) 9 (by decide)

/-- C9 (amended): the continuous task's inter-transaction sleep is drawn
uniformly from the half-open interval `[MinTxInterval, MaxTxInterval)`:
whenever `MinTxInterval < MaxTxInterval` the draw succeeds and its value
`v` satisfies `Min ≤ v < Max`; when `MinTxInterval = MaxTxInterval` the
draw fails — `rand.Intn` panics on a non-positive argument — rather than
being well-defined. -/
theorem txSleepDraw_halfOpen :
    ∀ (minI maxI r : Nat),
      (minI < maxI →
        ∃ v, Workload.txSleepDraw minI maxI r = some v ∧ minI ≤ v ∧ v < maxI) ∧
      (minI = maxI → Workload.txSleepDraw minI maxI r = none) := by
  intro minI maxI r
  constructor
  · intro hlt
    refine ⟨r % (maxI - minI) + minI, ?_, by omega, ?_⟩
    · rw [Workload.txSleepDraw, if_neg (by omega)]
    · have := Nat.mod_lt r (show 0 < maxI - minI by omega)
      omega
  · intro he
    rw [Workload.txSleepDraw, if_pos (by omega)]

/-- Counterexample for C9: at `MinTxInterval = MaxTxInterval = 5` the
sleep draw fails (`rand.Intn(0)` panics) instead of being well-defined. -/
theorem txSleepDraw_eq_counterexample :
    Workload.txSleepDraw 5 5 0 = none := rfl

/-- Witness for C9's amended theorem: a successful draw for `1 < 3` and
the failure at `2 = 2`. -/
theorem txSleepDraw_halfOpen_witness :
    (∃ v, Workload.txSleepDraw 1 3 5 = some v ∧ 1 ≤ v ∧ v < 3) ∧
      Workload.txSleepDraw 2 2 0 = none :=
  ⟨(txSleepDraw_halfOpen 1 3 5).1 (by omega),
   (txSleepDraw_halfOpen 2 2 0).2 rfl⟩

theorem txPollLoop_allAbsent :
    ∀ (fuel k t : Nat), t < 5050 → 5050 ≤ t + fuel →
      Bench.txPollLoop Bench.obsAllAbsent fuel k t = .exitRun 5050 := by
  intro fuel
  induction fuel with
  | zero => intro k t h1 h2; omega
  | succ f ih =>
    intro k t h1 h2
    rw [Bench.txPollLoop]
    have habs : ¬ Bench.absentCount (Bench.obsAllAbsent k) = 0 := by
      simp [Bench.absentCount, Bench.obsAllAbsent]
    rw [if_neg habs]
    by_cases hexit : 5050 ≤ t + 1
    · rw [if_pos hexit]
      have he : t + 1 = 5050 := by omega
      rw [he]
    · rw [if_neg hexit]
      exact ih (k + 1) (t + 1) (by omega) (by omega)

theorem txModeRun_allAbsent_eval :
    Bench.txModeRun Bench.obsAllAbsent 5050 1 0 0 0 = .exited 1 5050 := by
  show Bench.txModeRun Bench.obsAllAbsent 5050 (0 + 1) 0 0 0 = .exited 1 5050
  rw [Bench.txModeRun, txPollLoop_allAbsent 5050 0 0 (by omega) (by omega)]

theorem txPollLoop_bounds :
    ∀ (obs : Nat → List Bool) (fuel k t : Nat), t < 5050 →
      (∀ t2, Bench.txPollLoop obs fuel k t = .exitRun t2 → t2 = 5050) ∧
      (∀ k2 t2, Bench.txPollLoop obs fuel k t = .converged k2 t2 → t2 < 5050) := by
  intro obs fuel
  induction fuel with
  | zero =>
    intro k t ht
    refine ⟨fun t2 h => ?_, fun k2 t2 h => ?_⟩ <;> simp [Bench.txPollLoop] at h
  | succ f ih =>
    intro k t ht
    rw [Bench.txPollLoop]
    by_cases habs : Bench.absentCount (obs k) = 0
    · rw [if_pos habs]
      refine ⟨fun t2 h => ?_, fun k2 t2 h => ?_⟩
      · exact absurd h (by simp)
      · cases h
        exact ht
    · rw [if_neg habs]
      by_cases hexit : 5050 ≤ t + 1
      · rw [if_pos hexit]
        refine ⟨fun t2 h => ?_, fun k2 t2 h => ?_⟩
        · cases h
          omega
        · exact absurd h (by simp)
      · rw [if_neg hexit]
        exact ih (k + 1) (t + 1) (by omega)

theorem txPollLoop_converged_present :
    ∀ (obs : Nat → List Bool) (fuel k t k2 t2 : Nat),
      Bench.txPollLoop obs fuel k t = .converged k2 t2 →
      Bench.absentCount (obs (k2 - 1)) = 0 := by
  intro obs fuel
  induction fuel with
  | zero => intro k t k2 t2 h; simp [Bench.txPollLoop] at h
  | succ f ih =>
    intro k t k2 t2 h
    rw [Bench.txPollLoop] at h
    by_cases habs : Bench.absentCount (obs k) = 0
    · rw [if_pos habs] at h
      cases h
      simpa using habs
    · rw [if_neg habs] at h
      by_cases hexit : 5050 ≤ t + 1
      · rw [if_pos hexit] at h
        exact absurd h (by simp)
      · rw [if_neg hexit] at h
        exact ih (k + 1) (t + 1) k2 t2 h

theorem txModeRun_exit_txNum :
    ∀ (obs : Nat → List Bool) (pollFuel fuel k t s s2 t2 : Nat),
      t < 5050 → Bench.txModeRun obs pollFuel fuel k t s = .exited s2 t2 →
      t2 = 5050 := by
  intro obs pollFuel fuel
  induction fuel with
  | zero => intro k t s s2 t2 ht h; simp [Bench.txModeRun] at h
  | succ f ih =>
    intro k t s s2 t2 ht h
    rw [Bench.txModeRun] at h
    cases hres : Bench.txPollLoop obs pollFuel k t with
    | exitRun t3 =>
      rw [hres] at h
      cases h
      exact (txPollLoop_bounds obs pollFuel k t ht).1 t2 hres
    | converged k3 t3 =>
      rw [hres] at h
      exact ih k3 t3 (s + 1) s2 t2
        ((txPollLoop_bounds obs pollFuel k t ht).2 k3 t3 hres) h
    | fuelOut =>
      rw [hres] at h
      simp at h

/-- C1 (amended): in transaction-count mode, after submitting a
transaction the driver busy-polls all transaction pools; the poll loop
breaks exactly when the transaction is present in every pool (the
`counter` counts pools in which it is absent, and the loop breaks at
`counter == 0`); each polling pass in which the transaction is absent
from at least one pool increments `txNum`; and whenever the process
exits, the final `txNum` equals 5050 — it counts polling passes, not
confirmed transactions, so the exit can occur with far fewer than 5050
transactions submitted. -/
theorem txMode_counter_counts_polls :
    (∀ (obs : Nat → List Bool) (fuel k t : Nat),
      Bench.absentCount (obs k) = 0 →
        Bench.txPollLoop obs (fuel + 1) k t = .converged (k + 1) t) ∧
    (∀ (obs : Nat → List Bool) (fuel k t : Nat),
      Bench.absentCount (obs k) ≠ 0 → t + 1 < 5050 →
        Bench.txPollLoop obs (fuel + 1) k t = Bench.txPollLoop obs fuel (k + 1) (t + 1)) ∧
    (∀ (obs : Nat → List Bool) (fuel k t : Nat),
      Bench.absentCount (obs k) ≠ 0 → 5050 ≤ t + 1 →
        Bench.txPollLoop obs (fuel + 1) k t = .exitRun (t + 1)) ∧
    (∀ (obs : Nat → List Bool) (fuel k t k2 t2 : Nat),
      Bench.txPollLoop obs fuel k t = .converged k2 t2 →
        Bench.absentCount (obs (k2 - 1)) = 0) ∧
    (∀ (obs : Nat → List Bool) (pollFuel fuel k t s s2 t2 : Nat),
      t < 5050 → Bench.txModeRun obs pollFuel fuel k t s = .exited s2 t2 →
        t2 = 5050) := by
  refine ⟨?_, ?_, ?_, txPollLoop_converged_present, txModeRun_exit_txNum⟩
  · intro obs fuel k t habs
    rw [Bench.txPollLoop, if_pos habs]
  · intro obs fuel k t habs hlt
    rw [Bench.txPollLoop, if_neg habs, if_neg (by omega)]
  · intro obs fuel k t habs hge
    rw [Bench.txPollLoop, if_neg habs, if_pos hge]

/-- Counterexample for C1: with a single node whose pool never holds the
submitted transaction, the process exits after one submitted transaction
(`submitted = 1`), once `txNum` has been incremented on 5050 polling
passes — so termination does not wait for 5050 confirmed transactions. -/
theorem txMode_count_counterexample :
    Bench.txModeRun Bench.obsAllAbsent 5050 1 0 0 0 =
        Bench.TxModeOutcome.exited 1 5050 ∧
      (1 : Nat) < 5050 :=
  ⟨txModeRun_allAbsent_eval, by omega⟩

/-- Witness for C1's amended theorem: a converging pass, an exiting pass,
and a full exiting run, at concrete inputs. -/
theorem txMode_counter_counts_polls_witness :
    Bench.txPollLoop (fun _ => [true]) 3 0 0 = .converged 1 0 ∧
      Bench.txPollLoop (fun _ => [false]) 3 0 5049 = .exitRun 5050 ∧
      (5050 : Nat) = 5050 :=
  ⟨txMode_counter_counts_polls.1 (fun _ => [true]) 2 0 0 (by decide),
   txMode_counter_counts_polls.2.2.1 (fun _ => [false]) 2 0 5049 (by decide) (by omega),
   txMode_counter_counts_polls.2.2.2.2 Bench.obsAllAbsent 5050 1 0 0 0 1 5050
     (by omega) txModeRun_allAbsent_eval⟩

theorem netPoll_replicate (m a p : Nat) :
    Bench.netPoll ⟨List.replicate m a, p⟩ = ⟨List.replicate m (a + p), 0⟩ := by
  simp [Bench.netPoll, List.map_replicate]

theorem bhPollUntil_replicate (cur m a p pollFuel : Nat) (hf : 1 ≤ pollFuel)
    (ha : a + p = cur) :
    Bench.bhPollUntil cur pollFuel ⟨List.replicate m a, p⟩ =
      some ⟨List.replicate m cur, 0⟩ := by
  obtain ⟨f, rfl⟩ : ∃ f, pollFuel = f + 1 := ⟨pollFuel - 1, by omega⟩
  rw [Bench.bhPollUntil, netPoll_replicate, ha]
  have hall : ((List.replicate m cur).all (fun h => h == cur)) = true := by
    simp [List.all_eq_true, List.mem_replicate]
  rw [if_pos hall]

theorem bhRun_replicate :
    ∀ (m : Nat) (rand : Nat → Nat) (pollFuel fuel cur a p : Nat),
      1 ≤ pollFuel → cur < 110 → 110 - cur ≤ fuel → a + p = cur →
      Bench.bhRun rand pollFuel fuel cur ⟨List.replicate m a, p⟩ =
        .exited ⟨List.replicate m 109, 1⟩ := by
  intro m rand pollFuel fuel
  induction fuel with
  | zero => intro cur a p h1 h2 h3 h4; omega
  | succ f ih =>
    intro cur a p h1 h2 h3 h4
    rw [Bench.bhRun, bhPollUntil_replicate cur m a p pollFuel h1 h4]
    dsimp only
    by_cases hend : 110 ≤ cur + 1
    · rw [if_pos hend]
      have he : cur = 109 := by omega
      rw [he]
    · rw [if_neg hend]
      exact ih (cur + 1) cur 1 h1 (by omega) (by omega) rfl

/-- C2 (amended): in block-height mode each iteration busy-polls until
every node's chain height equals the expected height, sleeps one second,
triggers a uniformly random node's sealer, and advances the expected
height; on reaching the 110 target the process exits immediately after
triggering the 110th seal, without polling again — so at exit every
node's height is 109, the last barrier height it verified, with the
final sealed block still pending; the nodes' final heights are not 110. -/
theorem bhMode_final_heights :
    ∀ (m : Nat) (rand : Nat → Nat) (pollFuel fuel : Nat),
      1 ≤ pollFuel → 110 ≤ fuel →
      Bench.bhRun rand pollFuel fuel 0 ⟨List.replicate m 0, 0⟩ =
        .exited ⟨List.replicate m 109, 1⟩ :=
  fun m rand pollFuel fuel h1 h2 =>
    bhRun_replicate m rand pollFuel fuel 0 0 0 h1 (by omega) (by omega) rfl

/-- Counterexample for C2: a concrete two-node run of block-height mode
exits with both nodes at height 109 (one seal still pending), not with
every node at height 110. -/
theorem bhMode_final_heights_counterexample :
    Bench.bhRun (fun t => t) 1 110 0 ⟨[0, 0], 0⟩ =
        Bench.BHOutcome.exited ⟨[109, 109], 1⟩ ∧
      (109 : Nat) ≠ 110 :=
  ⟨by decide, by omega⟩

/-- Witness for C2's amended theorem at two nodes and concrete fuel. -/
theorem bhMode_final_heights_witness :
    Bench.bhRun (fun t => t) 1 110 0 ⟨List.replicate 2 0, 0⟩ =
      Bench.BHOutcome.exited ⟨List.replicate 2 109, 1⟩ :=
  bhMode_final_heights 2 (fun t => t) 1 110 (by omega) (by omega)

end GethLocal
